import Mathlib

/-!
Verification of the task-management core of `pixi` (`src/cli/task.rs`):
the task data model, the add-arguments → task translator, the batch
remove workflow, the environment task listing, and the task → TOML
serializer.
-/

namespace PixiTask

/-! ### Data model

The `Task` data model lives in `crate::task`, outside the file under
verification; it is reconstructed here from the specification's data-model
section (§3). -/

/-- Command payload of an `Execute` task: a single command line or a list of
command lines. Modelled from the spec: `cmd: Single(string) | Multiple(ordered
list of string)`. -/
inductive CmdArgs where
  | single : String → CmdArgs
  | multiple : List String → CmdArgs
  deriving DecidableEq, Repr

/-- Modelled from the spec: the payload of an `Execute` task —
`cmd`, `depends_on`, optional `inputs`/`outputs`, optional `cwd`, optional
insertion-ordered `env` mapping, and the `clean_env` flag. Paths and task
names are opaque strings. -/
structure Execute where
  cmd : CmdArgs
  depends_on : List String
  inputs : Option (List String)
  outputs : Option (List String)
  cwd : Option String
  env : Option (List (String × String))
  clean_env : Bool
  deriving DecidableEq, Repr

/-- Modelled from the spec: an `Alias` task consists only of a dependency
list. -/
structure Alias where
  depends_on : List String
  deriving DecidableEq, Repr

/-- Modelled from the spec: the closed task variant type
`Plain | Execute | Alias`. -/
inductive Task where
  | plain : String → Task
  | execute : Execute → Task
  | alias : Alias → Task
  deriving DecidableEq, Repr

/-! ### Command translator (`impl From<AddArgs> for Task`, task.rs:133-178) -/

/-- The add-arguments record (task.rs:56-88). `TaskName`, `Platform` and
`PathBuf` are opaque to this core and embedded as strings. -/
structure AddArgs where
  name : String
  commands : List String
  depends_on : Option (List String)
  platform : Option String
  feature : Option String
  cwd : Option String
  env : List (String × String)
  clean_env : Bool
  deriving DecidableEq, Repr

/-- Modelled from the spec: the shell-quoting helper `crate::task::quote`
(its source is outside the file under verification). The spec treats quoting
as a display/compat concern: a token that is empty or contains whitespace is
wrapped in double quotes, any other token is returned unchanged. -/
def quote (s : String) : String :=
  if s.data.any Char.isWhitespace || s.data.isEmpty then "\"" ++ s ++ "\"" else s

/-- The single command string built from the command tokens (task.rs:138-147):
one token is taken verbatim, several tokens are each quoted and joined with a
space. -/
def joinedCommand (commands : List String) : String :=
  if commands.length = 1 then commands.headD ""
  else String.intercalate " " (commands.map quote)

/-- One `IndexMap::insert`: an existing key keeps its position and only its
value is updated, a new key is appended at the end (the documented behavior
of the `indexmap` crate used at task.rs:161-164). -/
def indexMapInsert (m : List (String × String)) (key val : String) :
    List (String × String) :=
  if m.any fun p => decide (p.1 = key) then
    m.map fun p => if p.1 = key then (key, val) else p
  else m ++ [(key, val)]

/-- The `for (key, value) in value.env` insertion loop (task.rs:162-164),
threading the map being built. -/
def buildEnvFrom (m : List (String × String)) :
    List (String × String) → List (String × String)
  | [] => m
  | (key, val) :: rest => buildEnvFrom (indexMapInsert m key val) rest

/-- The translated `env` field (task.rs:158-166): `none` when no pairs were
given, otherwise the insertion-ordered map built from the pairs. -/
def taskEnv (pairs : List (String × String)) : Option (List (String × String)) :=
  if pairs.isEmpty then none else some (buildEnvFrom [] pairs)

/-- Characterization helper: the keys of a list in order of first occurrence,
skipping keys already in `seen`. -/
def dedupFirst (seen : List String) : List String → List String
  | [] => []
  | k :: ks => if k ∈ seen then dedupFirst seen ks else k :: dedupFirst (k :: seen) ks

/-- Characterization helper: the value of the last occurrence of key `k` in a
pair list, if any. -/
def lastVal (k : String) : List (String × String) → Option String
  | [] => none
  | (key, val) :: rest => (lastVal k rest).or (if key = k then some val else none)

/-- `impl From<AddArgs> for Task` (task.rs:133-178). The Rust test
`cmd_args.trim().is_empty()` is embedded as "every character is whitespace",
which is equivalent to trimming both ends and testing emptiness. -/
def taskFromAddArgs (value : AddArgs) : Task :=
  let depends_on := value.depends_on.getD []
  let cmd_args := joinedCommand value.commands
  if cmd_args.data.all Char.isWhitespace && !depends_on.isEmpty then
    Task.alias ⟨depends_on⟩
  else if depends_on.isEmpty && value.cwd.isNone && value.env.isEmpty then
    Task.plain cmd_args
  else
    Task.execute
      { cmd := CmdArgs.single cmd_args
        depends_on := depends_on
        inputs := none
        outputs := none
        cwd := value.cwd
        env := taskEnv value.env
        clean_env := value.clean_env }

/-! ### `parse_key_val` (task.rs:91-98) -/

/-- `str::find('=')` followed by the two slices, expressed on the character
list: locate the first `=`, return the characters before it and the
characters after it. -/
def splitFirstEq : List Char → Option (List Char × List Char)
  | [] => none
  | c :: rest =>
    if c = '=' then some ([], rest)
    else
      match splitFirstEq rest with
      | none => none
      | some (key, val) => some (c :: key, val)

/-- `parse_key_val` (task.rs:91-98): error when the string has no `=`,
otherwise the pieces before and after the first `=`. -/
def parse_key_val (s : String) : Except String (String × String) :=
  match splitFirstEq s.data with
  | none => Except.error ("invalid KEY=value: no `=` found in `" ++ s ++ "`")
  | some (key, val) => Except.ok (⟨key⟩, ⟨val⟩)

/-! ### Task serializer (`impl From<Task> for Item`, task.rs:379-429)

`toml_edit` values are embedded as a small inductive: strings, arrays and
inline tables (an association list in insertion order). Every `insert` in the
serializer targets a key not yet present, so inserting is appending. -/

/-- A `toml_edit` value: string, array, or inline table. -/
inductive TomlValue where
  | str : String → TomlValue
  | arr : List TomlValue → TomlValue
  | table : List (String × TomlValue) → TomlValue

/-- A `toml_edit::Item`: a value or nothing. -/
inductive Item where
  | value : TomlValue → Item
  | none : Item

/-- `impl From<Task> for Item` (task.rs:379-429). `cwd` paths and task names
are carried as strings, so `to_string_lossy` and `String::from` are
identities here. -/
def taskToItem : Task → Item
  | Task.plain s => Item.value (TomlValue.str s)
  | Task.execute process =>
    let table : List (String × TomlValue) :=
      match process.cmd with
      | CmdArgs.single cmd_str => [("cmd", TomlValue.str cmd_str)]
      | CmdArgs.multiple cmd_strs =>
        [("cmd", TomlValue.arr (cmd_strs.map TomlValue.str))]
    let table :=
      if !process.depends_on.isEmpty then
        table ++ [("depends-on", TomlValue.arr (process.depends_on.map TomlValue.str))]
      else table
    let table :=
      match process.cwd with
      | some cwd => table ++ [("cwd", TomlValue.str cwd)]
      | none => table
    let table :=
      match process.env with
      | some env =>
        table ++ [("env", TomlValue.table (env.map fun p => (p.1, TomlValue.str p.2)))]
      | none => table
    Item.value (TomlValue.table table)
  | Task.alias al =>
    Item.value (TomlValue.table
      [("depends-on", TomlValue.arr (al.depends_on.map TomlValue.str))])

/-! ### Batch remove (`execute`, `Operation::Remove` arm, task.rs:246-308)

The manifest's task table is external to the file under verification. It is
modelled from the spec (§4.2): a table keyed by the triple
(name, platform, feature); `tasks(platform, feature)` lists the names in that
exact scope; `remove_task` deletes the entry at that exact scope and fails
with `TaskNotFound` when it is absent. Stderr warnings, removals and saves
are recorded as an event trace so that their relative order can be stated. -/

/-- `FeatureName`: the default feature or a named one. -/
inductive FeatureName where
  | default
  | named : String → FeatureName
  deriving DecidableEq, Repr

/-- A manifest task-table key: (name, platform, feature). -/
abbrev TaskKey := String × Option String × FeatureName

/-- Modelled from the spec: the manifest's task table, keyed by
(name, platform, feature). -/
abbrev Manifest := List (TaskKey × Task)

/-- Modelled from the spec: `manifest.tasks(platform, feature)` — the names
of the tasks stored at exactly that (platform, feature) scope. -/
def manifestTasks (m : Manifest) (platform : Option String)
    (feature : FeatureName) : List String :=
  (m.filter fun e => decide (e.1.2.1 = platform) && decide (e.1.2.2 = feature)).map
    fun e => e.1.1

/-- Errors of the modelled manifest mutator. -/
inductive TaskError where
  | taskNotFound
  deriving DecidableEq, Repr

/-- Modelled from the spec: `manifest.remove_task(name, platform, feature)`
removes the entry at that exact scope and fails with `TaskNotFound` when no
such entry exists. -/
def remove_task (m : Manifest) (name : String) (platform : Option String)
    (feature : FeatureName) : Except TaskError Manifest :=
  if m.any fun e => decide (e.1 = (name, platform, feature)) then
    Except.ok (m.filter fun e => !decide (e.1 = (name, platform, feature)))
  else Except.error TaskError.taskNotFound

/-- The observable events of a batch remove: a stderr warning for a missing
name, a removal from the manifest, a save of the project. -/
inductive RemoveEvent where
  | warnMissing : String → RemoveEvent
  | removed : String → RemoveEvent
  | saved : RemoveEvent
  deriving DecidableEq, Repr

/-- The remove-arguments record (task.rs:41-52). -/
structure RemoveArgs where
  names : List String
  platform : Option String
  feature : Option String
  deriving DecidableEq, Repr

/-- Phase one of the remove arm (task.rs:251-295): probe every requested name
against the (unmutated) manifest, warn about each missing one, and collect
the surviving candidates in request order. Returns (events, `to_remove`). -/
def probeNames (m : Manifest) (platform : Option String) (feature : FeatureName) :
    List String → List RemoveEvent × List String
  | [] => ([], [])
  | name :: rest =>
    let (evs, toRemove) := probeNames m platform feature rest
    if name ∈ manifestTasks m platform feature then
      (evs, name :: toRemove)
    else
      (RemoveEvent.warnMissing name :: evs, toRemove)

/-- Phase two of the remove arm (task.rs:297-307): for each surviving
candidate in order, remove it and save the project; a failing removal
propagates (`?`) and aborts the remainder. Returns (events, final manifest,
result). -/
def removeAndSave (platform : Option String) (feature : FeatureName) :
    Manifest → List String → List RemoveEvent × Manifest × Except TaskError Unit
  | m, [] => ([], m, Except.ok ())
  | m, name :: rest =>
    match remove_task m name platform feature with
    | Except.error e => ([], m, Except.error e)
    | Except.ok m' =>
      let (evs, mfin, res) := removeAndSave platform feature m' rest
      (RemoveEvent.removed name :: RemoveEvent.saved :: evs, mfin, res)

/-- `args.feature.map_or(FeatureName::Default, FeatureName::Named)`
(task.rs:248-250). -/
def featureName (feature : Option String) : FeatureName :=
  match feature with
  | Option.none => FeatureName.default
  | Option.some f => FeatureName.named f

/-- The whole `Operation::Remove` arm (task.rs:246-308): resolve the feature,
probe all names, then remove-and-save each survivor. -/
def executeRemove (m : Manifest) (args : RemoveArgs) :
    List RemoveEvent × Manifest × Except TaskError Unit :=
  let feature := featureName args.feature
  let (warnEvs, toRemove) := probeNames m args.platform feature args.names
  let (remEvs, mfin, res) := removeAndSave args.platform feature m toRemove
  (warnEvs ++ remEvs, mfin, res)

/-! ### Listing (`execute`, `Operation::List` arm, task.rs:326-372)

Environments and their machine-compatibility check are external. Modelled
from the spec (§3, §4.3): an environment owns a name, a computed filtered
task set (`get_filtered_tasks`), and the outcome of the current-machine
compatibility check
(`verify_current_platform_has_required_virtual_packages`). Display-level
sorting, joining and decoration are terminal formatting, out of scope (§1);
the output constructors carry the task names being shown. -/

/-- Modelled from the spec: an environment with its name, its filtered task
set, and the result of the external current-machine compatibility check. -/
structure Environment where
  name : String
  filteredTasks : List String
  compatible : Bool
  deriving DecidableEq, Repr

/-- The list-arguments record (task.rs:116-131). -/
structure ListArgs where
  summary : Bool
  machine_readable : Bool
  environment : Option String
  deriving DecidableEq, Repr

/-- Error of the list operation. -/
inductive ListError where
  | unknownEnvironment
  deriving DecidableEq, Repr

/-- The computation of `available_tasks` (task.rs:326-349): with an explicit
environment name, that environment's filtered set (or `UnknownEnvironment`
when the name resolves to no environment); without one, the union of the
filtered sets of the environments passing the compatibility check. -/
def availableTasks (envs : List Environment) :
    Option String → Except ListError (List String)
  | Option.some n =>
    match envs.find? fun e => decide (e.name = n) with
    | Option.none => Except.error ListError.unknownEnvironment
    | Option.some env => Except.ok env.filteredTasks
  | Option.none =>
    Except.ok ((envs.filter fun e => e.compatible).flatMap fun e => e.filteredTasks)

/-- What the list operation prints. -/
inductive ListOutput where
  | noTasksFound
  | summaryPerEnv : List (String × List String) → ListOutput
  | machineReadable : List String → ListOutput
  | taskList : List String → ListOutput
  deriving DecidableEq, Repr

/-- The whole `Operation::List` arm (task.rs:326-372): compute the available
tasks, report "No tasks found" when there are none, otherwise print them in
the selected mode. -/
def executeList (envs : List Environment) (args : ListArgs) :
    Except ListError ListOutput :=
  match availableTasks envs args.environment with
  | Except.error e => Except.error e
  | Except.ok available =>
    if available.isEmpty then Except.ok ListOutput.noTasksFound
    else if args.summary then
      Except.ok (ListOutput.summaryPerEnv (envs.map fun e => (e.name, e.filteredTasks)))
    else if args.machine_readable then
      Except.ok (ListOutput.machineReadable available)
    else Except.ok (ListOutput.taskList available)

/-! ## Helper lemmas -/

theorem splitFirstEq_eq_none {l : List Char} :
    splitFirstEq l = none ↔ '=' ∉ l := by
  induction l with
  | nil => simp [splitFirstEq]
  | cons c rest ih =>
    by_cases hc : c = '='
    · subst hc
      simp [splitFirstEq]
    · rcases h : splitFirstEq rest with _ | ⟨k, v⟩
      · have hmem : '=' ∉ rest := ih.mp h
        simp only [splitFirstEq, if_neg hc, h, List.mem_cons, true_iff]
        rintro (h1 | h2)
        · exact hc h1.symm
        · exact hmem h2
      · have hmem : '=' ∈ rest := by
          by_contra hne
          have hnone := ih.mpr hne
          rw [h] at hnone
          simp at hnone
        simp [splitFirstEq, if_neg hc, h, hmem]

theorem splitFirstEq_eq_some {l k v : List Char}
    (h : splitFirstEq l = some (k, v)) :
    l = k ++ '=' :: v ∧ '=' ∉ k := by
  induction l generalizing k v with
  | nil => simp [splitFirstEq] at h
  | cons c rest ih =>
    by_cases hc : c = '='
    · subst hc
      simp [splitFirstEq] at h
      obtain ⟨hk, hv⟩ := h
      subst hk; subst hv
      simp
    · rcases hrec : splitFirstEq rest with _ | ⟨k', v'⟩
      · simp [splitFirstEq, if_neg hc, hrec] at h
      · simp [splitFirstEq, if_neg hc, hrec] at h
        obtain ⟨hk, hv⟩ := h
        subst hv
        obtain ⟨hrest, hmem⟩ := ih hrec
        subst hrest
        subst hk
        refine ⟨by simp, ?_⟩
        simp only [List.mem_cons]
        rintro (h1 | h2)
        · exact hc h1.symm
        · exact hmem h2

/-! ## Claims -/

/-- C5: `parse_key_val` fails exactly when the input has no `=`; otherwise it
splits at the first `=`, the key being the text before it (itself free of
`=`) and the value everything after it. In particular
`parse_key_val "FOO=bar=baz" = ok ("FOO", "bar=baz")` and
`parse_key_val "FOO"` is an error. -/
theorem parse_key_val_spec :
    parse_key_val "FOO=bar=baz" = Except.ok ("FOO", "bar=baz") ∧
    parse_key_val "FOO" =
      Except.error "invalid KEY=value: no `=` found in `FOO`" ∧
    ∀ s : String,
      ((∃ msg, parse_key_val s = Except.error msg) ↔ '=' ∉ s.data) ∧
      (∀ k v : String, parse_key_val s = Except.ok (k, v) →
        s.data = k.data ++ '=' :: v.data ∧ '=' ∉ k.data) := by
  refine ⟨by rfl, by rfl, ?_⟩
  intro s
  constructor
  · constructor
    · rintro ⟨msg, hmsg⟩
      unfold parse_key_val at hmsg
      rcases hsp : splitFirstEq s.data with _ | ⟨kc, vc⟩
      · exact splitFirstEq_eq_none.mp hsp
      · rw [hsp] at hmsg
        simp at hmsg
    · intro hmem
      refine ⟨"invalid KEY=value: no `=` found in `" ++ s ++ "`", ?_⟩
      unfold parse_key_val
      rw [splitFirstEq_eq_none.mpr hmem]
  · intro k v hkv
    unfold parse_key_val at hkv
    rcases hsp : splitFirstEq s.data with _ | ⟨kc, vc⟩
    · rw [hsp] at hkv
      simp at hkv
    · rw [hsp] at hkv
      simp only [Except.ok.injEq, Prod.mk.injEq] at hkv
      obtain ⟨hk, hv⟩ := hkv
      obtain ⟨heq, hne⟩ := splitFirstEq_eq_some hsp
      subst hk
      subst hv
      exact ⟨heq, hne⟩

/-- Witness for C5 at a concrete input: splitting `"A=b"`. -/
theorem parse_key_val_spec_witness :
    ("A=b").data = ("A").data ++ '=' :: ("b").data ∧ '=' ∉ ("A").data :=
  (parse_key_val_spec.2.2 "A=b").2 "A" "b" (by rfl)

/-- C1: the translator applies the variant-selection rules in order — a
blank joined command with dependencies gives `Alias`; no dependencies, no
cwd and no env pairs give `Plain`; anything else gives `Execute` with a
`Single` command and unset `inputs`/`outputs`. -/
theorem addArgs_variant_selection (args : AddArgs) :
    ((joinedCommand args.commands).data.all Char.isWhitespace = true →
      args.depends_on.getD [] ≠ [] →
      taskFromAddArgs args = Task.alias ⟨args.depends_on.getD []⟩) ∧
    (args.depends_on.getD [] = [] → args.cwd = none → args.env = [] →
      taskFromAddArgs args = Task.plain (joinedCommand args.commands)) ∧
    (((joinedCommand args.commands).data.all Char.isWhitespace = false ∨
        args.depends_on.getD [] = []) →
      ¬(args.depends_on.getD [] = [] ∧ args.cwd = none ∧ args.env = []) →
      taskFromAddArgs args =
        Task.execute
          { cmd := CmdArgs.single (joinedCommand args.commands)
            depends_on := args.depends_on.getD []
            inputs := none
            outputs := none
            cwd := args.cwd
            env := taskEnv args.env
            clean_env := args.clean_env }) := by
  refine ⟨?_, ?_, ?_⟩
  · intro hblank hdeps
    have hne : (args.depends_on.getD []).isEmpty = false := by
      rcases hd : args.depends_on.getD [] with _ | ⟨a, l⟩
      · exact absurd hd hdeps
      · rfl
    simp [taskFromAddArgs, hblank, hne]
  · intro hdeps hcwd henv
    simp [taskFromAddArgs, hdeps, hcwd, henv]
  · intro h1 h2
    have hcond1 : ((joinedCommand args.commands).data.all Char.isWhitespace &&
        !(args.depends_on.getD []).isEmpty) = false := by
      rcases h1 with hb | hd
      · simp [hb]
      · simp [hd]
    have hcond2 : ((args.depends_on.getD []).isEmpty && args.cwd.isNone &&
        args.env.isEmpty) = false := by
      by_cases hA : args.depends_on.getD [] = []
      · by_cases hB : args.cwd = none
        · have hC : args.env ≠ [] := fun hc => h2 ⟨hA, hB, hc⟩
          have he : args.env.isEmpty = false := by
            rcases hev : args.env with _ | ⟨p, l⟩
            · exact absurd hev hC
            · rfl
          simp [he]
        · have hcw : args.cwd.isNone = false := by
            rcases hc : args.cwd with _ | c
            · exact absurd hc hB
            · rfl
          simp [hcw]
      · have hd : (args.depends_on.getD []).isEmpty = false := by
          rcases hdd : args.depends_on.getD [] with _ | ⟨a, l⟩
          · exact absurd hdd hA
          · rfl
        simp [hd]
    simp only [taskFromAddArgs]
    rw [hcond1, hcond2]
    simp

/-- Witness for C1 at a concrete input: a blank command with one dependency
becomes an alias. -/
theorem addArgs_variant_selection_witness :
    taskFromAddArgs
      { name := "t", commands := [""], depends_on := some ["d"], platform := none,
        feature := none, cwd := none, env := [], clean_env := false } =
      Task.alias ⟨["d"]⟩ :=
  (addArgs_variant_selection _).1 (by decide) (by decide)

/-- C9: `clean_env` plays no role in variant selection — a non-blank command
with no dependencies, no cwd and no env pairs becomes `Plain` even when
`clean_env` is true, so the flag is dropped on that path. -/
theorem clean_env_not_in_variant_selection (args : AddArgs)
    (hcmd : (joinedCommand args.commands).data.all Char.isWhitespace = false)
    (hdeps : args.depends_on.getD [] = [])
    (hcwd : args.cwd = none) (henv : args.env = [])
    (_hclean : args.clean_env = true) :
    taskFromAddArgs args = Task.plain (joinedCommand args.commands) := by
  simp [taskFromAddArgs, hcmd, hdeps, hcwd, henv]

/-- Witness for C9 at a concrete input: `--clean-env` with a plain command
still produces `Plain`. -/
theorem clean_env_not_in_variant_selection_witness :
    taskFromAddArgs
      { name := "t", commands := ["echo"], depends_on := none, platform := none,
        feature := none, cwd := none, env := [], clean_env := true } =
      Task.plain (joinedCommand ["echo"]) :=
  clean_env_not_in_variant_selection _ (by decide) rfl rfl rfl rfl

/-! ### Characterization lemmas for the env map (C10) -/

theorem any_key_iff (m : List (String × String)) (key : String) :
    (m.any fun p => decide (p.1 = key)) = true ↔ key ∈ m.map Prod.fst := by
  simp only [List.any_eq_true, List.mem_map, decide_eq_true_eq]

theorem lookup_eq_none_of_not_mem {m : List (String × String)} {key : String}
    (h : key ∉ m.map Prod.fst) : m.lookup key = none := by
  induction m with
  | nil => rfl
  | cons p rest ih =>
    obtain ⟨a, b⟩ := p
    simp only [List.map_cons, List.mem_cons] at h
    push_neg at h
    obtain ⟨h1, h2⟩ := h
    have hba : (key == a) = false := beq_eq_false_iff_ne.mpr h1
    simp [List.lookup, hba, ih h2]

theorem lookup_isSome_of_mem {m : List (String × String)} {key : String}
    (h : key ∈ m.map Prod.fst) : ∃ w, m.lookup key = some w := by
  induction m with
  | nil => simp at h
  | cons p rest ih =>
    obtain ⟨a, b⟩ := p
    by_cases hk : key = a
    · subst hk
      exact ⟨b, by simp [List.lookup]⟩
    · have hmem : key ∈ rest.map Prod.fst := by
        simp only [List.map_cons, List.mem_cons] at h
        exact h.resolve_left hk
      obtain ⟨w, hw⟩ := ih hmem
      have hba : (key == a) = false := beq_eq_false_iff_ne.mpr hk
      exact ⟨w, by simp [List.lookup, hba, hw]⟩

theorem lookup_append (m₁ m₂ : List (String × String)) (k : String) :
    (m₁ ++ m₂).lookup k = (m₁.lookup k).or (m₂.lookup k) := by
  induction m₁ with
  | nil => simp [List.lookup]
  | cons p rest ih =>
    obtain ⟨a, b⟩ := p
    by_cases hk : k = a
    · have hba : (k == a) = true := beq_iff_eq.mpr hk
      simp [List.lookup, hba]
    · have hba : (k == a) = false := beq_eq_false_iff_ne.mpr hk
      simp [List.lookup, hba, ih]

theorem lookup_replace (key val : String) (m : List (String × String)) (k : String) :
    (m.map fun p => if p.1 = key then (key, val) else p).lookup k =
      if k = key then ((m.lookup key).map fun _ => val) else m.lookup k := by
  induction m with
  | nil => simp [List.lookup]
  | cons p rest ih =>
    obtain ⟨a, b⟩ := p
    rw [List.map_cons]
    have hhead : (if (a, b).1 = key then (key, val) else (a, b)) =
        if a = key then (key, val) else (a, b) := rfl
    rw [hhead]
    by_cases hp : a = key
    · rw [if_pos hp]
      subst hp
      by_cases hk : k = a
      · subst hk
        have hkk : (k == k) = true := beq_iff_eq.mpr rfl
        simp [List.lookup, hkk]
      · have hba : (k == a) = false := beq_eq_false_iff_ne.mpr hk
        simp [List.lookup, hba, ih, hk]
    · rw [if_neg hp]
      by_cases hk : k = a
      · subst hk
        have hkk : (k == k) = true := beq_iff_eq.mpr rfl
        have hne : ¬(k = key) := fun h => hp h
        simp [List.lookup, hkk, hne]
      · have hba : (k == a) = false := beq_eq_false_iff_ne.mpr hk
        have hba2 : (key == a) = false := beq_eq_false_iff_ne.mpr (fun h => hp h.symm)
        simp [List.lookup, hba, hba2, ih]

theorem lookup_indexMapInsert (m : List (String × String)) (key val k : String) :
    (indexMapInsert m key val).lookup k =
      if k = key then some val else m.lookup k := by
  unfold indexMapInsert
  by_cases hany : (m.any fun p => decide (p.1 = key)) = true
  · rw [if_pos hany, lookup_replace]
    by_cases hk : k = key
    · subst hk
      rw [if_pos rfl, if_pos rfl]
      obtain ⟨w, hw⟩ := lookup_isSome_of_mem ((any_key_iff m k).mp hany)
      rw [hw]
      rfl
    · rw [if_neg hk, if_neg hk]
  · rw [if_neg hany, lookup_append]
    have hnone : m.lookup key = none := by
      apply lookup_eq_none_of_not_mem
      intro hmem
      exact hany ((any_key_iff m key).mpr hmem)
    by_cases hk : k = key
    · subst hk
      have hkk : (k == k) = true := beq_iff_eq.mpr rfl
      simp [List.lookup, hkk, hnone]
    · have hba : (k == key) = false := beq_eq_false_iff_ne.mpr hk
      simp [List.lookup, hba, hk]

theorem keys_replace (key val : String) (m : List (String × String)) :
    (m.map fun p => if p.1 = key then (key, val) else p).map Prod.fst =
      m.map Prod.fst := by
  rw [List.map_map]
  apply List.map_congr_left
  intro p _
  by_cases h : p.1 = key
  · simp [Function.comp, h]
  · simp [Function.comp, h]

theorem keys_indexMapInsert (m : List (String × String)) (key val : String) :
    (indexMapInsert m key val).map Prod.fst =
      if key ∈ m.map Prod.fst then m.map Prod.fst
      else m.map Prod.fst ++ [key] := by
  unfold indexMapInsert
  by_cases hany : (m.any fun p => decide (p.1 = key)) = true
  · rw [if_pos hany, keys_replace, if_pos ((any_key_iff m key).mp hany)]
  · have hmem : key ∉ m.map Prod.fst := fun h => hany ((any_key_iff m key).mpr h)
    rw [if_neg hany, if_neg hmem, List.map_append]
    rfl

theorem dedupFirst_congr (seen seen' : List String) (l : List String)
    (h : ∀ x, x ∈ seen ↔ x ∈ seen') : dedupFirst seen l = dedupFirst seen' l := by
  induction l generalizing seen seen' with
  | nil => rfl
  | cons k ks ih =>
    by_cases hk : k ∈ seen
    · simp only [dedupFirst]
      rw [if_pos hk, if_pos ((h k).mp hk)]
      exact ih seen seen' h
    · simp only [dedupFirst]
      rw [if_neg hk, if_neg (fun hc => hk ((h k).mpr hc))]
      congr 1
      apply ih
      intro x
      simp [List.mem_cons, h x]

theorem keys_buildEnvFrom (pairs : List (String × String)) :
    ∀ m : List (String × String),
      (buildEnvFrom m pairs).map Prod.fst =
        m.map Prod.fst ++ dedupFirst (m.map Prod.fst) (pairs.map Prod.fst) := by
  induction pairs with
  | nil =>
    intro m
    simp [buildEnvFrom, dedupFirst]
  | cons p rest ih =>
    intro m
    obtain ⟨key, val⟩ := p
    simp only [buildEnvFrom]
    rw [ih, keys_indexMapInsert]
    by_cases hmem : key ∈ m.map Prod.fst
    · rw [if_pos hmem]
      simp only [List.map_cons, dedupFirst]
      rw [if_pos hmem]
    · rw [if_neg hmem]
      simp only [List.map_cons, dedupFirst]
      rw [if_neg hmem]
      rw [dedupFirst_congr (m.map Prod.fst ++ [key]) (key :: m.map Prod.fst)
            (rest.map Prod.fst)
            (fun x => by simp [List.mem_append, List.mem_cons, or_comm])]
      rw [List.append_assoc, List.singleton_append]

theorem lookup_buildEnvFrom (pairs : List (String × String)) :
    ∀ (m : List (String × String)) (k : String),
      (buildEnvFrom m pairs).lookup k = (lastVal k pairs).or (m.lookup k) := by
  induction pairs with
  | nil =>
    intro m k
    simp [buildEnvFrom, lastVal]
  | cons p rest ih =>
    intro m k
    obtain ⟨key, val⟩ := p
    simp only [buildEnvFrom, lastVal]
    rw [ih, lookup_indexMapInsert, Option.or_assoc]
    congr 1
    by_cases hk : k = key
    · subst hk
      simp
    · rw [if_neg hk, if_neg (fun h => hk h.symm), Option.none_or]

/-- C10: the translated env mapping is absent exactly when no pairs were
given; otherwise its keys are the distinct pair keys in order of first
occurrence, each mapped to the value of that key's last occurrence. -/
theorem taskEnv_spec (pairs : List (String × String)) :
    (taskEnv pairs = none ↔ pairs = []) ∧
    (∀ m, taskEnv pairs = some m →
      m.map Prod.fst = dedupFirst [] (pairs.map Prod.fst) ∧
      ∀ k, m.lookup k = lastVal k pairs) := by
  constructor
  · unfold taskEnv
    rcases pairs with _ | ⟨p, rest⟩
    · simp
    · simp
  · intro m hm
    unfold taskEnv at hm
    rcases pairs with _ | ⟨p, rest⟩
    · simp at hm
    · simp only [List.isEmpty_cons, Bool.false_eq_true, if_false,
        Option.some.injEq] at hm
      subst hm
      constructor
      · have h := keys_buildEnvFrom (p :: rest) []
        simpa using h
      · intro k
        have h := lookup_buildEnvFrom (p :: rest) [] k
        simpa [List.lookup] using h

/-- Witness for C10 at a concrete input: the pair list
`A=1, B=2, A=3` keeps `A` first and maps it to `3`. -/
theorem taskEnv_spec_witness :
    ([("A", "3"), ("B", "2")] : List (String × String)).map Prod.fst =
      dedupFirst []
        (([("A", "1"), ("B", "2"), ("A", "3")] :
          List (String × String)).map Prod.fst) ∧
    ([("A", "3"), ("B", "2")] : List (String × String)).lookup "A" =
      lastVal "A" [("A", "1"), ("B", "2"), ("A", "3")] := by
  have h := (taskEnv_spec [("A", "1"), ("B", "2"), ("A", "3")]).2
    [("A", "3"), ("B", "2")] (by rfl)
  exact ⟨h.1, h.2 "A"⟩

/-- C2: the serializer maps `Plain s` to the bare string `s`; maps `Execute`
to an inline table whose `cmd` entry is a string for `Single` and an array
for `Multiple`, whose `depends-on` array is present iff the dependency list
is non-empty and whose `cwd`/`env` entries are present iff those fields are
present; and maps `Alias` to an inline table holding only a `depends-on`
array. -/
theorem taskToItem_spec (s : String) (p : Execute) (a : Alias) :
    taskToItem (Task.plain s) = Item.value (TomlValue.str s) ∧
    (∃ t, taskToItem (Task.execute p) = Item.value (TomlValue.table t) ∧
      t.lookup "cmd" = some (match p.cmd with
        | CmdArgs.single c => TomlValue.str c
        | CmdArgs.multiple cs => TomlValue.arr (cs.map TomlValue.str)) ∧
      t.lookup "depends-on" = (if p.depends_on.isEmpty then none
        else some (TomlValue.arr (p.depends_on.map TomlValue.str))) ∧
      t.lookup "cwd" = p.cwd.map TomlValue.str ∧
      t.lookup "env" = p.env.map fun e =>
        TomlValue.table (e.map fun q => (q.1, TomlValue.str q.2))) ∧
    taskToItem (Task.alias a) = Item.value (TomlValue.table
      [("depends-on", TomlValue.arr (a.depends_on.map TomlValue.str))]) := by
  refine ⟨rfl, ?_, rfl⟩
  obtain ⟨cmd, dep, inp, out, cwd, env, ce⟩ := p
  rcases cmd with c | cs <;> rcases cwd with _ | c' <;> rcases env with _ | e <;>
    rcases dep with _ | ⟨d, ds⟩ <;>
    exact ⟨_, rfl, by simp [List.lookup], by simp [List.lookup],
      by simp [List.lookup], by simp [List.lookup]⟩

/-- C8: the serializer never writes `inputs`, `outputs`, or `clean_env` into
the table produced for an `Execute` task — its keys all come from
`cmd`/`depends-on`/`cwd`/`env`. -/
theorem taskToItem_lossy_fields (p : Execute) :
    ∃ t, taskToItem (Task.execute p) = Item.value (TomlValue.table t) ∧
      "inputs" ∉ t.map Prod.fst ∧ "outputs" ∉ t.map Prod.fst ∧
      "clean_env" ∉ t.map Prod.fst ∧
      ∀ k ∈ t.map Prod.fst,
        k = "cmd" ∨ k = "depends-on" ∨ k = "cwd" ∨ k = "env" := by
  obtain ⟨cmd, dep, inp, out, cwd, env, ce⟩ := p
  rcases cmd with c | cs <;> rcases cwd with _ | c' <;> rcases env with _ | e <;>
    rcases dep with _ | ⟨d, ds⟩ <;>
    exact ⟨_, rfl, by simp, by simp, by simp, by simp⟩

/-- C4: without an explicit environment name, the available tasks are exactly
the union of the filtered sets of the environments passing the compatibility
check; incompatible environments are silently excluded, the operation never
errors, and an empty union is reported as "no tasks found". -/
theorem list_union_over_compatible (envs : List Environment) (args : ListArgs)
    (h : args.environment = none) :
    availableTasks envs args.environment =
      Except.ok ((envs.filter fun e => e.compatible).flatMap
        fun e => e.filteredTasks) ∧
    (∀ n, (n ∈ (envs.filter fun e => e.compatible).flatMap
        fun e => e.filteredTasks) ↔
      ∃ env ∈ envs, env.compatible = true ∧ n ∈ env.filteredTasks) ∧
    (∃ out, executeList envs args = Except.ok out) ∧
    (((envs.filter fun e => e.compatible).flatMap fun e => e.filteredTasks) = [] →
      executeList envs args = Except.ok ListOutput.noTasksFound) := by
  refine ⟨by rw [h]; rfl, ?_, ?_, ?_⟩
  · intro n
    simp [List.mem_flatMap, List.mem_filter, and_assoc]
  · simp only [executeList, availableTasks, h]
    split_ifs <;> exact ⟨_, rfl⟩
  · intro hempty
    simp only [executeList, availableTasks, h, hempty]
    rfl

/-- Witness for C4 at concrete inputs: an empty project lists "no tasks
found" without error, and an incompatible environment's tasks are excluded
from the union. -/
theorem list_union_over_compatible_witness :
    executeList []
        { summary := false, machine_readable := false, environment := none } =
      Except.ok ListOutput.noTasksFound ∧
    availableTasks
        [⟨"e1", ["t1"], true⟩, ⟨"e2", ["t2"], false⟩]
        (none : Option String) =
      Except.ok ["t1"] := by
  constructor
  · exact (list_union_over_compatible []
      { summary := false, machine_readable := false, environment := none }
      rfl).2.2.2 rfl
  · exact ((list_union_over_compatible
      [⟨"e1", ["t1"], true⟩, ⟨"e2", ["t2"], false⟩]
      { summary := false, machine_readable := false, environment := none }
      rfl).1).trans (by rfl)

/-- C7: with an explicit environment name, only that environment's filtered
task set is used; a name resolving to no environment fails with
`UnknownEnvironment` before any task output is produced. -/
theorem list_explicit_environment (envs : List Environment) (args : ListArgs)
    (n : String) (h : args.environment = some n) :
    ((∀ env ∈ envs, env.name ≠ n) →
      executeList envs args = Except.error ListError.unknownEnvironment) ∧
    (∀ env, envs.find? (fun e => decide (e.name = n)) = some env →
      env.name = n ∧
      availableTasks envs args.environment = Except.ok env.filteredTasks) := by
  constructor
  · intro hnone
    have hfind : envs.find? (fun e => decide (e.name = n)) = none :=
      List.find?_eq_none.mpr (fun x hx => by simp [hnone x hx])
    simp only [executeList, availableTasks, h, hfind]
  · intro env hfind
    have hname : env.name = n := by
      have hp := List.find?_some hfind
      simpa using hp
    refine ⟨hname, ?_⟩
    simp only [availableTasks, h, hfind]

/-- Witness for C7 at concrete inputs: an unknown name errors, a known name
yields exactly that environment's filtered set. -/
theorem list_explicit_environment_witness :
    executeList [⟨"e1", ["t1"], true⟩]
        { summary := false, machine_readable := false, environment := some "zz" } =
      Except.error ListError.unknownEnvironment ∧
    availableTasks [⟨"e1", ["t1"], true⟩] (some "e1") =
      Except.ok ["t1"] := by
  constructor
  · exact (list_explicit_environment [⟨"e1", ["t1"], true⟩]
      { summary := false, machine_readable := false, environment := some "zz" }
      "zz" rfl).1 (by decide)
  · exact ((list_explicit_environment [⟨"e1", ["t1"], true⟩]
      { summary := false, machine_readable := false, environment := some "e1" }
      "e1" rfl).2 ⟨"e1", ["t1"], true⟩ (by rfl)).2

/-! ### Lemmas about the batch remove -/

theorem probeNames_eq (m : Manifest) (p : Option String) (f : FeatureName) :
    ∀ names : List String,
      probeNames m p f names =
        ((names.filter fun n => !decide (n ∈ manifestTasks m p f)).map
          RemoveEvent.warnMissing,
         names.filter fun n => decide (n ∈ manifestTasks m p f)) := by
  intro names
  induction names with
  | nil => rfl
  | cons name rest ih =>
    by_cases hmem : name ∈ manifestTasks m p f
    · simp [probeNames, ih, hmem, List.filter_cons]
    · simp [probeNames, ih, hmem, List.filter_cons]

theorem mem_manifestTasks_iff {m : Manifest} {p : Option String}
    {f : FeatureName} {n : String} :
    n ∈ manifestTasks m p f ↔ ∃ t, ((n, p, f), t) ∈ m := by
  unfold manifestTasks
  simp only [List.mem_map, List.mem_filter, Bool.and_eq_true, decide_eq_true_eq]
  constructor
  · rintro ⟨e, ⟨hem, hp, hf⟩, hn⟩
    obtain ⟨⟨en, ep, ef⟩, et⟩ := e
    simp only at hp hf hn
    subst hp; subst hf; subst hn
    exact ⟨et, hem⟩
  · rintro ⟨t, ht⟩
    exact ⟨((n, p, f), t), ⟨ht, rfl, rfl⟩, rfl⟩

theorem remove_task_ok {m : Manifest} {n : String} {p : Option String}
    {f : FeatureName} (h : n ∈ manifestTasks m p f) :
    remove_task m n p f =
      Except.ok (m.filter fun e => !decide (e.1 = (n, p, f))) := by
  obtain ⟨t, ht⟩ := mem_manifestTasks_iff.mp h
  unfold remove_task
  rw [if_pos]
  rw [List.any_eq_true]
  exact ⟨((n, p, f), t), ht, by simp⟩

theorem mem_manifestTasks_filter (key : TaskKey) {m : Manifest} {n : String}
    {p : Option String} {f : FeatureName} (hne : n ≠ key.1) :
    n ∈ manifestTasks (m.filter fun e => !decide (e.1 = key)) p f ↔
      n ∈ manifestTasks m p f := by
  rw [mem_manifestTasks_iff, mem_manifestTasks_iff]
  constructor
  · rintro ⟨t, ht⟩
    exact ⟨t, (List.mem_filter.mp ht).1⟩
  · rintro ⟨t, ht⟩
    refine ⟨t, List.mem_filter.mpr ⟨ht, ?_⟩⟩
    simp only [Bool.not_eq_eq_eq_not, Bool.not_true, decide_eq_false_iff_not]
    intro hcon
    apply hne
    rw [← hcon]

theorem removeAndSave_cons_ok {p : Option String} {f : FeatureName}
    {m m' : Manifest} {name : String} {rest : List String}
    (hrt : remove_task m name p f = Except.ok m') :
    removeAndSave p f m (name :: rest) =
      (RemoveEvent.removed name :: RemoveEvent.saved ::
          (removeAndSave p f m' rest).1,
        (removeAndSave p f m' rest).2.1, (removeAndSave p f m' rest).2.2) := by
  simp only [removeAndSave, hrt]

theorem removeAndSave_cons_err {p : Option String} {f : FeatureName}
    {m : Manifest} {name : String} {rest : List String} {e : TaskError}
    (hrt : remove_task m name p f = Except.error e) :
    removeAndSave p f m (name :: rest) = ([], m, Except.error e) := by
  simp only [removeAndSave, hrt]

theorem removeAndSave_all_present (p : Option String) (f : FeatureName) :
    ∀ (l : List String) (m : Manifest), l.Nodup →
      (∀ n ∈ l, n ∈ manifestTasks m p f) →
      (removeAndSave p f m l).1 =
        l.flatMap (fun n => [RemoveEvent.removed n, RemoveEvent.saved]) ∧
      (removeAndSave p f m l).2.2 = Except.ok () := by
  intro l
  induction l with
  | nil =>
    intro m _ _
    exact ⟨rfl, rfl⟩
  | cons name rest ih =>
    intro m hnd hpres
    have hmem := hpres name (List.mem_cons_self _ _)
    have hrest : ∀ n ∈ rest,
        n ∈ manifestTasks (m.filter fun e => !decide (e.1 = (name, p, f))) p f := by
      intro n hn
      have hne : n ≠ name := by
        intro hcon
        subst hcon
        exact (List.nodup_cons.mp hnd).1 hn
      exact (mem_manifestTasks_filter (name, p, f) hne).mpr
        (hpres n (List.mem_cons_of_mem _ hn))
    obtain ⟨h1, h2⟩ :=
      ih (m.filter fun e => !decide (e.1 = (name, p, f)))
        (List.nodup_cons.mp hnd).2 hrest
    rw [removeAndSave_cons_ok (remove_task_ok hmem)]
    constructor
    · show RemoveEvent.removed name :: RemoveEvent.saved :: _ = _
      rw [h1, List.flatMap_cons]
      rfl
    · exact h2

theorem removed_mem_removeAndSave {p : Option String} {f : FeatureName} :
    ∀ (l : List String) (m : Manifest) (n : String),
      RemoveEvent.removed n ∈ (removeAndSave p f m l).1 → n ∈ l := by
  intro l
  induction l with
  | nil =>
    intro m n h
    simp [removeAndSave] at h
  | cons name rest ih =>
    intro m n h
    rcases hrt : remove_task m name p f with e | m'
    · rw [removeAndSave_cons_err hrt] at h
      simp at h
    · rw [removeAndSave_cons_ok hrt] at h
      simp only [List.mem_cons] at h
      rcases h with h | h | h
      · simp only [RemoveEvent.removed.injEq] at h
        exact h ▸ List.mem_cons_self _ _
      · cases h
      · exact List.mem_cons_of_mem _ (ih m' n h)

theorem removeAndSave_preserves {p : Option String} {f : FeatureName} {n : String} :
    ∀ (l : List String) (m : Manifest), (∀ s ∈ l, s ≠ n) →
      ∀ (p' : Option String) (f' : FeatureName) (t : Task),
        (((n, p', f'), t) ∈ (removeAndSave p f m l).2.1 ↔ ((n, p', f'), t) ∈ m) := by
  intro l
  induction l with
  | nil =>
    intro m _ p' f' t
    exact Iff.rfl
  | cons name rest ih =>
    intro m hne p' f' t
    rcases hrt : remove_task m name p f with e | m'
    · rw [removeAndSave_cons_err hrt]
    · rw [removeAndSave_cons_ok hrt]
      have hm' : ((n, p', f'), t) ∈ m' ↔ ((n, p', f'), t) ∈ m := by
        unfold remove_task at hrt
        by_cases hany : (m.any fun e => decide (e.1 = (name, p, f))) = true
        · rw [if_pos hany] at hrt
          simp only [Except.ok.injEq] at hrt
          subst hrt
          constructor
          · intro hmem
            exact (List.mem_filter.mp hmem).1
          · intro hmem
            refine List.mem_filter.mpr ⟨hmem, ?_⟩
            simp only [Bool.not_eq_eq_eq_not, Bool.not_true, decide_eq_false_iff_not]
            intro hcon
            have : n = name := congrArg Prod.fst hcon
            exact hne name (List.mem_cons_self _ _) this.symm
        · rw [if_neg hany] at hrt
          cases hrt
      rw [← hm']
      exact ih m' (fun s hs => hne s (List.mem_cons_of_mem _ hs)) p' f' t

/-- C3, counterexample: requesting the same present task twice passes both
probes, but the second removal fails (`TaskNotFound`, the entry is already
gone) and aborts the batch — so it is not the case that each surviving
candidate is removed and saved. -/
theorem remove_batch_counterexample :
    ¬ ((executeRemove [(("a", Option.none, FeatureName.default), Task.plain "x")]
          { names := ["a", "a"], platform := none, feature := none }).1 =
        [RemoveEvent.removed "a", RemoveEvent.saved,
          RemoveEvent.removed "a", RemoveEvent.saved] ∧
        (executeRemove [(("a", Option.none, FeatureName.default), Task.plain "x")]
          { names := ["a", "a"], platform := none, feature := none }).2.2 =
          Except.ok ()) := by
  intro hcon
  exact absurd hcon.1 (by decide)

/-- C3, amended: for a batch remove whose requested names are pairwise
distinct, all existence probes and their warnings for missing names happen
first, then each surviving candidate is removed in request order with a save
immediately after every individual removal, and the batch succeeds. -/
theorem remove_batch_two_phase (m : Manifest) (args : RemoveArgs)
    (h : args.names.Nodup) :
    (executeRemove m args).1 =
      ((args.names.filter fun n =>
          !decide (n ∈ manifestTasks m args.platform (featureName args.feature))).map
        RemoveEvent.warnMissing) ++
      ((args.names.filter fun n =>
          decide (n ∈ manifestTasks m args.platform (featureName args.feature))).flatMap
        fun n => [RemoveEvent.removed n, RemoveEvent.saved]) ∧
    (executeRemove m args).2.2 = Except.ok () := by
  have hsurv : (args.names.filter fun n =>
      decide (n ∈ manifestTasks m args.platform (featureName args.feature))).Nodup :=
    h.filter _
  have hpres : ∀ n ∈ (args.names.filter fun n =>
      decide (n ∈ manifestTasks m args.platform (featureName args.feature))),
      n ∈ manifestTasks m args.platform (featureName args.feature) := by
    intro n hn
    have := (List.mem_filter.mp hn).2
    exact of_decide_eq_true this
  obtain ⟨h1, h2⟩ := removeAndSave_all_present args.platform
    (featureName args.feature) _ m hsurv hpres
  constructor
  · show ((probeNames m args.platform (featureName args.feature) args.names).1 ++
      (removeAndSave args.platform (featureName args.feature) m
        (probeNames m args.platform (featureName args.feature) args.names).2).1) = _
    rw [probeNames_eq]
    rw [h1]
  · show (removeAndSave args.platform (featureName args.feature) m
      (probeNames m args.platform (featureName args.feature) args.names).2).2.2 = _
    rw [probeNames_eq]
    exact h2

/-- Witness for the amended C3 at a concrete input: removing `a`, `c`, `b`
where `c` is missing warns about `c` first, and then removes and saves `a`
and `b` in order. -/
theorem remove_batch_two_phase_witness :
    (executeRemove
        [(("a", Option.none, FeatureName.default), Task.plain "x"),
          (("b", Option.none, FeatureName.default), Task.plain "y")]
        { names := ["a", "c", "b"], platform := none, feature := none }).1 =
      [RemoveEvent.warnMissing "c", RemoveEvent.removed "a", RemoveEvent.saved,
        RemoveEvent.removed "b", RemoveEvent.saved] ∧
    (executeRemove
        [(("a", Option.none, FeatureName.default), Task.plain "x"),
          (("b", Option.none, FeatureName.default), Task.plain "y")]
        { names := ["a", "c", "b"], platform := none, feature := none }).2.2 =
      Except.ok () := by
  have h := remove_batch_two_phase
    [(("a", Option.none, FeatureName.default), Task.plain "x"),
      (("b", Option.none, FeatureName.default), Task.plain "y")]
    { names := ["a", "c", "b"], platform := none, feature := none }
    (by decide)
  exact ⟨h.1.trans (by decide), h.2⟩

/-- C6: a remove request naming a task absent in the requested
(platform, feature) scope leaves every manifest entry with that name
untouched, emits exactly one warning for that occurrence (the trace is the
trace of the same batch without it, with one `warnMissing` inserted), never
removes it, and the rest of the batch proceeds identically. -/
theorem remove_missing_nonfatal (m : Manifest) (platform : Option String)
    (feature : Option String) (pre post : List String) (n : String)
    (hmiss : n ∉ manifestTasks m platform (featureName feature)) :
    (∃ u w,
      (executeRemove m { names := pre ++ post, platform, feature }).1 = u ++ w ∧
      (executeRemove m { names := pre ++ n :: post, platform, feature }).1 =
        u ++ RemoveEvent.warnMissing n :: w) ∧
    (executeRemove m { names := pre ++ n :: post, platform, feature }).2 =
      (executeRemove m { names := pre ++ post, platform, feature }).2 ∧
    RemoveEvent.removed n ∉
      (executeRemove m { names := pre ++ n :: post, platform, feature }).1 ∧
    (∀ (p' : Option String) (f' : FeatureName) (t : Task),
      (((n, p', f'), t) ∈
          (executeRemove m { names := pre ++ n :: post, platform, feature }).2.1 ↔
        ((n, p', f'), t) ∈ m)) := by
  have hdec : (!decide (n ∈ manifestTasks m platform (featureName feature))) = true := by
    simp [hmiss]
  have hdec2 : (decide (n ∈ manifestTasks m platform (featureName feature))) = false := by
    simp [hmiss]
  have hfilter_not :
      ((pre ++ n :: post).filter fun x =>
        !decide (x ∈ manifestTasks m platform (featureName feature))) =
      (pre.filter fun x =>
        !decide (x ∈ manifestTasks m platform (featureName feature))) ++
      n :: (post.filter fun x =>
        !decide (x ∈ manifestTasks m platform (featureName feature))) := by
    rw [List.filter_append, List.filter_cons, if_pos hdec]
  have hfilter_mem :
      ((pre ++ n :: post).filter fun x =>
        decide (x ∈ manifestTasks m platform (featureName feature))) =
      ((pre ++ post).filter fun x =>
        decide (x ∈ manifestTasks m platform (featureName feature))) := by
    rw [List.filter_append, List.filter_append, List.filter_cons, if_neg (by simp [hdec2])]
  have hsurv_ne : ∀ s ∈ ((pre ++ post).filter fun x =>
      decide (x ∈ manifestTasks m platform (featureName feature))), s ≠ n := by
    intro s hs hcon
    subst hcon
    exact hmiss (of_decide_eq_true (List.mem_filter.mp hs).2)
  have htrace : ∀ names : List String,
      (executeRemove m { names := names, platform, feature }).1 =
        ((names.filter fun x =>
          !decide (x ∈ manifestTasks m platform (featureName feature))).map
            RemoveEvent.warnMissing) ++
        (removeAndSave platform (featureName feature) m
          (names.filter fun x =>
            decide (x ∈ manifestTasks m platform (featureName feature)))).1 := by
    intro names
    show ((probeNames m platform (featureName feature) names).1 ++
      (removeAndSave platform (featureName feature) m
        (probeNames m platform (featureName feature) names).2).1) = _
    rw [probeNames_eq]
  have hmanifest : ∀ names : List String,
      (executeRemove m { names := names, platform, feature }).2 =
        (removeAndSave platform (featureName feature) m
          (names.filter fun x =>
            decide (x ∈ manifestTasks m platform (featureName feature)))).2 := by
    intro names
    show ((removeAndSave platform (featureName feature) m
        (probeNames m platform (featureName feature) names).2).2.1,
      (removeAndSave platform (featureName feature) m
        (probeNames m platform (featureName feature) names).2).2.2) = _
    rw [probeNames_eq]
  refine ⟨?_, ?_, ?_, ?_⟩
  · refine ⟨(pre.filter fun x =>
        !decide (x ∈ manifestTasks m platform (featureName feature))).map
          RemoveEvent.warnMissing,
      ((post.filter fun x =>
        !decide (x ∈ manifestTasks m platform (featureName feature))).map
          RemoveEvent.warnMissing) ++
        (removeAndSave platform (featureName feature) m
          ((pre ++ post).filter fun x =>
            decide (x ∈ manifestTasks m platform (featureName feature)))).1,
      ?_, ?_⟩
    · rw [htrace, List.filter_append, List.map_append, List.append_assoc]
    · rw [htrace, hfilter_not, hfilter_mem, List.map_append, List.map_cons,
        List.append_assoc, List.cons_append]
  · rw [hmanifest, hmanifest, hfilter_mem]
  · rw [htrace, hfilter_mem]
    intro hcon
    rcases List.mem_append.mp hcon with hw | hr
    · obtain ⟨x, _, hx⟩ := List.mem_map.mp hw
      cases hx
    · exact absurd rfl (hsurv_ne n (removed_mem_removeAndSave _ m n hr))
  · intro p' f' t
    have h2 := hmanifest (pre ++ n :: post)
    have : (executeRemove m { names := pre ++ n :: post, platform, feature }).2.1 =
        (removeAndSave platform (featureName feature) m
          ((pre ++ n :: post).filter fun x =>
            decide (x ∈ manifestTasks m platform (featureName feature)))).2.1 :=
      congrArg Prod.fst h2
    rw [this, hfilter_mem]
    exact removeAndSave_preserves _ m hsurv_ne p' f' t

/-- Witness for C6 at a concrete input: removing `a` and the missing `b`
behaves like removing `a` alone plus one warning, and the entry named `b`
(stored for another feature) is untouched. -/
theorem remove_missing_nonfatal_witness :
    RemoveEvent.removed "b" ∉
      (executeRemove
        [(("a", Option.none, FeatureName.default), Task.plain "x"),
          (("b", Option.none, FeatureName.named "f"), Task.plain "y")]
        { names := ["a", "b"], platform := none, feature := none }).1 ∧
    ((("b", Option.none, FeatureName.named "f"), Task.plain "y") ∈
      (executeRemove
        [(("a", Option.none, FeatureName.default), Task.plain "x"),
          (("b", Option.none, FeatureName.named "f"), Task.plain "y")]
        { names := ["a", "b"], platform := none, feature := none }).2.1 ↔
      (("b", Option.none, FeatureName.named "f"), Task.plain "y") ∈
        ([(("a", Option.none, FeatureName.default), Task.plain "x"),
          (("b", Option.none, FeatureName.named "f"), Task.plain "y")] :
          Manifest)) := by
  have h := remove_missing_nonfatal
    [(("a", Option.none, FeatureName.default), Task.plain "x"),
      (("b", Option.none, FeatureName.named "f"), Task.plain "y")]
    none none ["a"] [] "b" (by decide)
  exact ⟨h.2.2.1, h.2.2.2 (Option.none) (FeatureName.named "f") (Task.plain "y")⟩

end PixiTask
